import Mathlib

/-!
Verification development for the beam-search RL agent repository
(`agent.py`, `q_function.py`).

Modelling conventions used throughout this file:

* Machine floats (state values, q-values, rewards) are modelled exactly.
  The beam-search rollout models are parametric in the value type `V`
  (any linearly ordered type with addition); concrete executions
  instantiate `V := Int`, general theorems hold for any `V`, including
  the rational/real models of the float values used by the code.
  The credit-assignment and Q-target models use `ℚ` (they multiply by a
  discount/decay factor).
* Neural-network scoring (`self(actions)` / `self.q_function(...)`) is an
  opaque oracle: a function `qv` from the action batch to the list of
  scores, exactly as `rollout` consumes it.  `get_aggregation_transform`
  (`math.log` by default, identity for `Bilinear`) is an abstract
  function parameter `t`: the code only ever adds its output to a value.
* The environment server is an oracle `env` mapping the stepped beam to
  the per-state `(reward, actions)` response, exactly the shape
  `environment.step` returns to `rollout`.
* Python's stable `list.sort(key=..., reverse=True)` is modelled by a
  stable insertion sort `sortByValue` (descending by `value`).  Stable
  sorts with equal keys are extensionally unique, so this is the same
  function as Python's Timsort at this key.
* `q_function.py` imports `State`/`Environment` from `environment.py`,
  which is not part of the given sources; following the specification
  (modelled from the spec), `State` identity there is equality of the
  `facts` tuple, so the Python sets `seen` / `set(...) - seen` in
  `QFunction.rollout` are modelled as collections keyed by `facts`.
  `list(set(...))` enumerates a hash set in an unspecified order, which
  is modelled by an arbitrary function parameter `reorder`.
-/

/-- State of the search (spec §3; `agent.py` lines 30-44, and modelled
from the spec for the `environment.py` variant used by `q_function.py`):
`facts` and `goals` are immutable sequences of strings, `value` the
cumulative path score.  The parent back-reference is modelled separately
(see `Arena` below) because it is only consumed by path reconstruction. -/
structure QState (V : Type) where
  facts : List String
  goals : List String
  value : V
deriving DecidableEq, Repr

/-- Action edge as consumed by `QFunction.rollout`: source state, action
text, the freshly created `next_state`, and the 0/1 reward flag. -/
structure QAction (V : Type) where
  src : QState V
  act : String
  next : QState V
  reward : Bool
deriving DecidableEq, Repr

variable {V W : Type}

/-- Python set construction `set([a.next_state for a in actions])` over
states whose identity is their `facts` tuple: keeps the first occurrence
of each distinct `facts` value, in first-occurrence order (the posterior
`list(...)` enumeration order is modelled separately by `reorder`). -/
def dedupFacts (l : List (QState V)) : List (QState V) :=
  l.foldl (fun acc s => if s.facts ∈ acc.map (fun u => u.facts) then acc else acc ++ [s]) []

/-- Stable insertion (descending by `value`): an element moving in from
the left of the list stays before every element with value `≤` its own,
so earlier elements precede equal-valued later ones, as in Python's
stable sort. -/
def insertByValue [LinearOrder V] (s : QState V) : List (QState V) → List (QState V)
  | [] => [s]
  | u :: rest => if u.value ≤ s.value then s :: u :: rest else u :: insertByValue s rest

/-- Model of `ns.sort(key=lambda s: s.value, reverse=True)`: stable sort,
descending by `value`. -/
def sortByValue [LinearOrder V] : List (QState V) → List (QState V)
  | [] => []
  | s :: rest => insertByValue s (sortByValue rest)

/-- Loop of `QFunction.rollout` (`q_function.py` lines 41-75).  One call
per remaining step of `range(max_steps)`:
an empty beam breaks; `environment.step(beam)` is the oracle `env`;
a truthy reward breaks with success; no candidate actions breaks with
failure; otherwise every action is scored (oracle `qv`), every
`next_state.value` becomes `state.value + t(score)`, candidates are the
facts-deduplicated next states minus `seen` in hash-set order
(`reorder`), sorted descending; the full candidate list `ns` is appended
to `history` and added to `seen`, and the beam becomes `ns[:beam_size]`. -/
def qfRolloutGo [LinearOrder V] [Add V]
    (env : List (QState V) → List (Bool × List (QAction V)))
    (qv : List (QAction V) → List W) (t : W → V)
    (reorder : List (QState V) → List (QState V)) (beamSize : Nat) :
    Nat → List (QState V) → List (List (QState V)) → List (List String) →
    Bool × List (List (QState V))
  | 0, _, history, _ => (false, history)
  | fuel+1, beam, history, seen =>
    if beam.isEmpty then (false, history)
    else
      let res := env beam
      let rewards := res.map Prod.fst
      let actions := (res.map Prod.snd).flatten
      if rewards.any id then (true, history)
      else if actions.isEmpty then (false, history)
      else
        let scored := (actions.zip (qv actions)).map
          (fun p => { p.1.next with value := p.1.src.value + t p.2 })
        let ns := sortByValue (reorder ((dedupFacts scored).filter
          (fun s => decide (s.facts ∉ seen))))
        qfRolloutGo env qv t reorder beamSize fuel (ns.take beamSize)
          (history ++ [ns]) (seen ++ ns.map (fun s => s.facts))

/-- Model of `QFunction.rollout` (`q_function.py` lines 27-75):
`beam = [state]`, `history = [beam]`, `seen = {state}`, then the loop. -/
def qfRollout [LinearOrder V] [Add V]
    (env : List (QState V) → List (Bool × List (QAction V)))
    (qv : List (QAction V) → List W) (t : W → V)
    (reorder : List (QState V) → List (QState V))
    (root : QState V) (maxSteps beamSize : Nat) :
    Bool × List (List (QState V)) :=
  qfRolloutGo env qv t reorder beamSize maxSteps [root] [[root]] [root.facts]

/-- Loop of the legacy `QFunction.rollout` in `agent.py` (lines 77-108):
`history.append(beam)` at the top of each iteration, no `seen` set, the
candidate list is `[a.next_state for a in actions]` in input order, and
the second `history.append(beam)` appends the truncated beam. -/
def agentRolloutGo [LinearOrder V] [Add V]
    (env : List (QState V) → List (Bool × List (QAction V)))
    (qv : List (QAction V) → List W) (t : W → V) (beamSize : Nat) :
    Nat → List (QState V) → List (List (QState V)) →
    Bool × List (List (QState V))
  | 0, _, history => (false, history)
  | fuel+1, beam, history =>
    let history := history ++ [beam]
    let res := env beam
    let rewards := res.map Prod.fst
    let actions := (res.map Prod.snd).flatten
    if rewards.any id then (true, history)
    else if actions.isEmpty then (false, history)
    else
      let scored := (actions.zip (qv actions)).map
        (fun p => { p.1.next with value := p.1.src.value + t p.2 })
      let ns := sortByValue scored
      agentRolloutGo env qv t beamSize fuel (ns.take beamSize)
        (history ++ [ns.take beamSize])

/-- Model of the legacy `QFunction.rollout` of `agent.py` (lines 70-108):
`beam = [state]`, `history = []` (the root layer is only appended inside
the loop), then the loop. -/
def agentRollout [LinearOrder V] [Add V]
    (env : List (QState V) → List (Bool × List (QAction V)))
    (qv : List (QAction V) → List W) (t : W → V)
    (root : QState V) (maxSteps beamSize : Nat) :
    Bool × List (List (QState V)) :=
  agentRolloutGo env qv t beamSize maxSteps [root] []

/-- Concrete root state used by counterexample executions. -/
def c9Root : QState Int := { facts := ["r"], goals := [], value := 0 }

/-- Degenerate concrete environment oracle (returns no actions). -/
def c9Env : List (QState Int) → List (Bool × List (QAction Int)) :=
  fun beam => beam.map (fun _ => (false, []))

/-- Degenerate concrete scorer. -/
def c9Qv : List (QAction Int) → List Int := fun l => l.map (fun _ => 0)

/-- Concrete root state shared by several concrete executions. -/
def cRoot : QState Int := { facts := ["r"], goals := [], value := 0 }

/-- Concrete scorer assigning score 0 to every action. -/
def zeroQv : List (QAction Int) → List Int := fun l => l.map (fun _ => 0)

/-- Next state reached by the single action of `w1Env`. -/
def w1Next : QState Int := { facts := ["r", "a"], goals := [], value := 0 }

/-- Concrete environment with one action from the root and none after. -/
def w1Env : List (QState Int) → List (Bool × List (QAction Int)) :=
  fun beam => beam.map (fun s =>
    if s.facts = ["r"] then (false, [{ src := s, act := "a", next := w1Next, reward := false }])
    else (false, []))

/-- First candidate next state of the branching environment `c2Env`. -/
def c2A : QState Int := { facts := ["r", "a"], goals := [], value := 0 }

/-- Second candidate next state of the branching environment `c2Env`. -/
def c2B : QState Int := { facts := ["r", "b"], goals := [], value := 0 }

/-- Concrete environment giving the root two candidate actions. -/
def c2Env : List (QState Int) → List (Bool × List (QAction Int)) :=
  fun beam => beam.map (fun s =>
    if s.facts = ["r"] then
      (false, [{ src := s, act := "a", next := c2A, reward := false },
               { src := s, act := "b", next := c2B, reward := false }])
    else (false, []))

/-- Concrete environment where the root has two equal-scored successors,
one of which (`["r", "a"]`) is terminal on the next step and the other a
dead end. -/
def c8Env : List (QState Int) → List (Bool × List (QAction Int)) :=
  fun beam => beam.map (fun s =>
    if s.facts = ["r"] then
      (false, [{ src := s, act := "a", next := c2A, reward := false },
               { src := s, act := "b", next := c2B, reward := false }])
    else if s.facts = ["r", "a"] then (true, [])
    else (false, []))

/-- Concrete state with value 1 for the sort-invariance witness. -/
def w8X : QState Int := { facts := ["x"], goals := [], value := 1 }

/-- Concrete state with value 2 for the sort-invariance witness. -/
def w8Y : QState Int := { facts := ["y"], goals := [], value := 2 }

/-- Argument passed to `collections.deque(...)`: either a Python int or
an iterable.  `BeamSearchIterativeDeepening.__init__` passes the int
`replay_buffer_size` positionally (`agent.py` lines 407-408); the first
positional parameter of `deque` is its initial iterable, and an int is
not iterable. -/
inductive PyDequeArg (α : Type) where
  | intArg : Int → PyDequeArg α
  | iterArg : List α → PyDequeArg α

/-- Python `collections.deque(arg)` without `maxlen`: succeeds on an
iterable (an unbounded deque seeded with its elements) and raises
`TypeError` on an int. -/
def dequeOfArg {α : Type} : PyDequeArg α → Except String (List α)
  | PyDequeArg.intArg _ => Except.error "TypeError: 'int' object is not iterable"
  | PyDequeArg.iterArg l => Except.ok l

/-- Model of the buffer setup in `BeamSearchIterativeDeepening.__init__`
(`agent.py` lines 405-408): `deque(self.replay_buffer_size)` twice. -/
def bsidInitBuffers (α : Type) (replayBufferSize : Int) :
    Except String (List α × List α) := do
  let pos ← dequeOfArg (PyDequeArg.intArg replayBufferSize : PyDequeArg α)
  let neg ← dequeOfArg (PyDequeArg.intArg replayBufferSize : PyDequeArg α)
  return (pos, neg)

/-- Append to a `collections.deque(maxlen=c)` (as created by
`QLearning.__init__`, `agent.py` line 593): the new element goes to the
right; when over capacity the leftmost (oldest) elements are dropped. -/
def dequePush {α : Type} (c : Nat) (l : List α) (x : α) : List α :=
  if c < (l ++ [x]).length then (l ++ [x]).drop ((l ++ [x]).length - c) else l ++ [x]

/-- Replay-buffer tuple of `QLearning` (`agent.py` lines 579-580): the
taken action, the observed reward and the next state's action set. -/
structure QRBTuple (α : Type) where
  a0 : α
  r : ℚ
  A1 : List α
deriving DecidableEq, Repr

/-- Torch `.max()` over a batch of scores: the maximum of a nonempty
list, an error (modelled as `none`) on an empty one. -/
def listMax : List ℚ → Option ℚ
  | [] => none
  | x :: xs => some (xs.foldl max x)

/-- Target computation of `QLearning.gradient_steps` for one sampled
transition (`agent.py` lines 646-653): the reward itself when positive
(terminal), otherwise `r + discount_factor * max Q(A1)`, with the
scores computed under `torch.no_grad` (the pure oracle `qf`); `none`
models the runtime error of `.max()` on an empty action set. -/
def computeTarget {α : Type} (qf : List α → List ℚ) (discount : ℚ)
    (t : QRBTuple α) : Option ℚ :=
  if 0 < t.r then some t.r
  else (listMax (qf t.A1)).map (fun m => t.r + discount * m)

/-- Targets `ys` for a whole sampled batch, in batch order; a failing
element aborts the computation, as the raised exception would. -/
def computeTargets {α : Type} (qf : List α → List ℚ) (discount : ℚ)
    (batch : List (QRBTuple α)) : Option (List ℚ) :=
  batch.mapM (computeTarget qf discount)

/-- Inner-loop buffer append of `QLearning.learn_from_environment`
(`agent.py` lines 622-625): after `environment.step([s_next])` returns
`(r, next_actions)`, the tuple is appended to the bounded replay buffer
unconditionally — also when `r = 0` and `next_actions` is empty. -/
def qlObserve {α : Type} (size : Nat) (buf : List (QRBTuple α))
    (a0 : α) (r : ℚ) (nextActions : List α) : List (QRBTuple α) :=
  dequePush size buf { a0 := a0, r := r, A1 := nextActions }

/-- Concrete scorer for the Q-target witness: score 1 for every action. -/
def w7Qf : List Nat → List ℚ := fun l => l.map (fun _ => 1)

/-- Concrete two-transition batch for the Q-target witness: one terminal
transition with positive reward, one bootstrapped transition. -/
def w7Batch : List (QRBTuple Nat) :=
  [{ a0 := 0, r := 1, A1 := [] }, { a0 := 1, r := 0, A1 := [5] }]

/-- State record of `agent.py`'s `State` class (lines 30-44) in the
arena model: Python object identity becomes the index in
`Arena.states`; `parentAction` holds the index of the producing
`Action`, or `none` for a root. -/
structure AState where
  facts : List String
  goals : List String
  value : ℚ
  parentAction : Option Nat
deriving DecidableEq, Repr

/-- Action record of `agent.py`'s `Action` class (lines 48-60): indices
of the source and produced states, the action text, the environment
reward flag and the model score. -/
structure AAction where
  state : Nat
  action : String
  nextState : Nat
  reward : ℚ
  value : ℚ
deriving DecidableEq, Repr

/-- Arena of all `State` and `Action` objects alive during a search;
Python references become stable indices. -/
structure Arena where
  states : List AState
  actions : List AAction
deriving DecidableEq, Repr

/-- Placeholder state for out-of-range indices (never hit under the
well-formedness hypotheses). -/
def defaultAState : AState := { facts := [], goals := [], value := 0, parentAction := none }

/-- Placeholder action for out-of-range indices. -/
def defaultAAction : AAction :=
  { state := 0, action := "", nextState := 0, reward := 0, value := 0 }

/-- State record at index `i`. -/
def stateAt (ar : Arena) (i : Nat) : AState := ar.states.getD i defaultAState

/-- Value attribute of the state at index `i` (`s.value`). -/
def valueAt (ar : Arena) (i : Nat) : ℚ := (stateAt ar i).value

/-- Parent state of state `i`, i.e. `s.parent_action.state`. -/
def parentStateOf (ar : Arena) (i : Nat) : Option Nat :=
  match (stateAt ar i).parentAction with
  | none => none
  | some a => some ((ar.actions.getD a defaultAAction).state)

/-- One entry of an `actions` list in the `/step` response. -/
structure StepAct where
  action : String
  state : String
deriving DecidableEq, Repr

/-- One per-state entry of the `/step` response. -/
structure StepResp where
  success : Bool
  actions : List StepAct
deriving DecidableEq, Repr

/-- Construction part of `Environment.step` (`agent.py` lines 180-191):
for each stepped state (index `sid`) and its response entry, one
`Action` per response action, whose `next_state` is a fresh `State`
with `facts = state.facts + (a['state'],)`, the same goals, value 0.0,
and `parent_action` referencing the creating action (the code sets that
reference in the same call, before anything observes the new state).
`sIdx` and `aIdx` are the next free state/action indices.  Returns the
new states, the new actions, and the per-input-state lists of created
action indices. -/
def buildStep (ar : Arena) : List (Nat × StepResp) → Nat → Nat →
    List AState × List AAction × List (List Nat)
  | [], _, _ => ([], [], [])
  | (sid, r) :: rest, sIdx, aIdx =>
    let n := r.actions.length
    let newActs := r.actions.enum.map (fun p =>
      ({ state := sid, action := p.2.action, nextState := sIdx + p.1,
         reward := 0, value := 0 } : AAction))
    let newSts := r.actions.enum.map (fun p =>
      ({ facts := (stateAt ar sid).facts ++ [p.2.state],
         goals := (stateAt ar sid).goals, value := 0,
         parentAction := some (aIdx + p.1) } : AState))
    let b := buildStep ar rest (sIdx + n) (aIdx + n)
    (newSts ++ b.1, newActs ++ b.2.1, ((List.range n).map (fun k => aIdx + k)) :: b.2.2)

/-- Model of `Environment.step` (`agent.py` lines 173-193): builds the
new actions and next states from the response, then overwrites every
input state's value with its observed reward — `s.value = rewards[i]`,
1 for success and 0 otherwise (lines 188-189).  Returns the extended
arena and the per-state `(reward, created action indices)` response. -/
def envStep (ar : Arena) (sids : List Nat) (resp : List StepResp) :
    Arena × List (ℚ × List Nat) :=
  let b := buildStep ar (sids.zip resp) ar.states.length ar.actions.length
  let states1 := ar.states ++ b.1
  let states2 := (sids.zip resp).foldl
    (fun sts p => sts.set p.1
      { sts.getD p.1 defaultAState with value := if p.2.success then 1 else 0 })
    states1
  ({ states := states2, actions := ar.actions ++ b.2.1 },
   (resp.map (fun r => if r.success then (1 : ℚ) else 0)).zip b.2.2)

/-- Backward walk of `recover_solutions`: collect the terminal-to-root
state chain following `parent_action.state`; structurally bounded by
`fuel` (under the acyclicity condition `parentStateOf ar i = some p →
p < i`, the fuel `s + 1` used by `recoverSolutions` never runs out). -/
def chainBack (ar : Arena) : Nat → Nat → List Nat
  | 0, s => [s]
  | fuel+1, s =>
    match parentStateOf ar s with
    | none => [s]
    | some p => s :: chainBack ar fuel p

/-- Model of `QFunction.recover_solutions` (`q_function.py` lines
77-91, textually identical in `agent.py` lines 110-124): take the
states of the final history layer with strictly positive value and
return, for each, the reversed (root-first) parent chain.  The code has
no traversal cap and no error path. -/
def recoverSolutions (ar : Arena) (hist : List (List Nat)) : List (List Nat) :=
  ((hist.getLastD []).filter (fun s => decide (0 < valueAt ar s))).map
    (fun s => (chainBack ar s s).reverse)

/-- Parent edge recorded in `state_parent_edge` during
`BeamSearchIterativeDeepening.beam_search` (`agent.py` lines 477-481):
`state_parent_edge[id(a.next_state)] = (s, a)`, with object ids as
indices; `edges` lists the dictionary in insertion order. -/
structure PEdge where
  child : Nat
  parent : Nat
  actionId : Nat
deriving DecidableEq, Repr

/-- Dictionary lookup `state_parent_edge[id(current)]`. -/
def lookupEdge (edges : List PEdge) (s : Nat) : Option PEdge :=
  edges.find? (fun e => e.child == s)

/-- Backward credit walk of `beam_search` after a solution is found
(`agent.py` lines 495-507): starting with reward 1.0 at the terminal,
assign the running reward to the entering action, multiply the running
reward by the decay, and continue from the parent; fuel-bounded (the
fuel used by `actionReward` never runs out on acyclic edge maps). -/
def creditWalkAux (edges : List PEdge) (decay : ℚ) :
    Nat → Nat → ℚ → List (Nat × ℚ) → List (Nat × ℚ)
  | 0, _, _, acc => acc
  | fuel+1, cur, curR, acc =>
    match lookupEdge edges cur with
    | none => acc
    | some e =>
      creditWalkAux edges decay fuel e.parent (curR * decay) (acc ++ [(e.actionId, curR)])

/-- The `action_reward` dictionary after the credit walk from the
solution state `sol` (in insertion order). -/
def actionReward (edges : List PEdge) (decay : ℚ) (sol : Nat) : List (Nat × ℚ) :=
  creditWalkAux edges decay (sol + 1) sol 1 []

/-- Action ids along the solution path, nearest-to-farthest from the
terminal (the action at distance 0 from the terminal comes first). -/
def solChainAux (edges : List PEdge) : Nat → Nat → List Nat
  | 0, _ => []
  | fuel+1, cur =>
    match lookupEdge edges cur with
    | none => []
    | some e => e.actionId :: solChainAux edges fuel e.parent

/-- Solution-path action ids from solution state `sol`. -/
def solChain (edges : List PEdge) (sol : Nat) : List Nat :=
  solChainAux edges (sol + 1) sol

/-- Geometric reward assignment: pairs each action id of the list with
`c * decay ^ position`. -/
def powListFrom (decay : ℚ) : ℚ → List Nat → List (Nat × ℚ)
  | _, [] => []
  | c, a :: rest => (a, c) :: powListFrom decay (c * decay) rest

/-- Dictionary read `action_reward.get(id(a), 0.0)`. -/
def arLookup (ar : List (Nat × ℚ)) (a : Nat) : ℚ :=
  ((ar.find? (fun p => p.1 == a)).map Prod.snd).getD 0

/-- Buffer-filling pass of `beam_search` (`agent.py` lines 533-537):
iterate the recorded parent edges, read each action's assigned reward
from `action_reward` with default 0.0, and append the example
`(state, action, reward)` to the positive buffer when the reward is
strictly positive, otherwise to the negative buffer. -/
def fillBuffers (edges : List PEdge) (ar : List (Nat × ℚ)) :
    List (Nat × Nat × ℚ) × List (Nat × Nat × ℚ) :=
  edges.foldl (fun bufs e =>
    if 0 < arLookup ar e.actionId then
      (bufs.1 ++ [(e.child, e.actionId, arLookup ar e.actionId)], bufs.2)
    else
      (bufs.1, bufs.2 ++ [(e.child, e.actionId, arLookup ar e.actionId)])) ([], [])

/-- Concrete one-state arena whose single state has the negative
path-score value -1. -/
def c4Arena : Arena :=
  { states := [{ facts := ["x"], goals := [], value := -1, parentAction := none }],
    actions := [] }

/-- Concrete three-state arena: a parent chain `0 ← 1 ← 2` through the
two actions, the terminal state 2 carrying positive value. -/
def c5Arena : Arena :=
  { states :=
      [{ facts := ["a"], goals := [], value := 0, parentAction := none },
       { facts := ["a", "b"], goals := [], value := 0, parentAction := some 0 },
       { facts := ["a", "b", "c"], goals := [], value := 1, parentAction := some 1 }],
    actions :=
      [{ state := 0, action := "s1", nextState := 1, reward := 0, value := 0 },
       { state := 1, action := "s2", nextState := 2, reward := 0, value := 0 }] }

/-- Concrete three-edge parent-edge map: solution state 3 reached from
state 0 through states 1 and 2 by actions 10, 11, 12. -/
def w6Edges : List PEdge :=
  [{ child := 1, parent := 0, actionId := 10 },
   { child := 2, parent := 1, actionId := 11 },
   { child := 3, parent := 2, actionId := 12 }]

/-- C9, amended part: with `max_steps = 0` the `q_function.py` rollout
returns `success = False` and `history = [[root_state]]` for every
environment, scorer, transform, hash-set order, root and beam size,
while the legacy `agent.py` rollout returns `success = False` and a
completely empty `history = []` (its initial history does not contain
the root layer). -/
theorem claim9_amended_zero_steps
    (env : List (QState Int) → List (Bool × List (QAction Int)))
    (qv : List (QAction Int) → List Int) (t : Int → Int)
    (reorder : List (QState Int) → List (QState Int))
    (root : QState Int) (beamSize : Nat) :
    qfRollout env qv t reorder root 0 beamSize = (false, [[root]]) ∧
    agentRollout env qv t root 0 beamSize = (false, []) :=
  ⟨rfl, rfl⟩

/-- C9, counterexample to the claim as stated: the claim covers both
cited implementations of `rollout`, but the legacy `agent.py` rollout
called with `max_steps = 0` returns `history = []`, not `[[root_state]]`:
`history` starts empty and the root beam is only appended inside the
loop body, which never runs. -/
theorem claim9_agent_rollout_empty_history :
    (agentRollout c9Env c9Qv id c9Root 0 1).2 = [] ∧
    ([] : List (List (QState Int))) ≠ [[c9Root]] := by
  exact ⟨rfl, by decide⟩

/-- Stable insertion permutes: inserting is a permutation of consing. -/
theorem insertByValue_perm [LinearOrder V] (s : QState V) (l : List (QState V)) :
    (insertByValue s l).Perm (s :: l) := by
  induction l with
  | nil => simp [insertByValue]
  | cons u rest ih =>
    rw [insertByValue]
    split
    · exact List.Perm.refl _
    · exact (ih.cons u).trans (List.Perm.swap s u rest)

/-- Model of Python's stable sort permutes its input. -/
theorem sortByValue_perm [LinearOrder V] (l : List (QState V)) :
    (sortByValue l).Perm l := by
  induction l with
  | nil => exact List.Perm.refl _
  | cons s rest ih => exact (insertByValue_perm s (sortByValue rest)).trans (ih.cons s)

/-- Membership is preserved by the sort. -/
theorem mem_sortByValue [LinearOrder V] {a : QState V} {l : List (QState V)} :
    a ∈ sortByValue l ↔ a ∈ l :=
  (sortByValue_perm l).mem_iff

/-- Stable insertion into a descending-sorted list stays sorted. -/
theorem insertByValue_sorted [LinearOrder V] (s : QState V) (l : List (QState V))
    (h : l.Pairwise (fun a b => b.value ≤ a.value)) :
    (insertByValue s l).Pairwise (fun a b => b.value ≤ a.value) := by
  induction l with
  | nil => simp [insertByValue]
  | cons u rest ih =>
    rw [insertByValue]
    rcases List.pairwise_cons.1 h with ⟨hu, hrest⟩
    split
    · rename_i hle
      refine List.pairwise_cons.2 ⟨?_, h⟩
      intro w hw
      rcases List.mem_cons.1 hw with rfl | hw
      · exact hle
      · exact le_trans (hu w hw) hle
    · rename_i hgt
      refine List.pairwise_cons.2 ⟨?_, ih hrest⟩
      intro w hw
      rcases List.mem_cons.1 ((insertByValue_perm s rest).mem_iff.1 hw) with rfl | hw
      · exact le_of_lt (lt_of_not_le hgt)
      · exact hu w hw

/-- Output of the sort model is sorted descending by `value`. -/
theorem sortByValue_sorted [LinearOrder V] (l : List (QState V)) :
    (sortByValue l).Pairwise (fun a b => b.value ≤ a.value) := by
  induction l with
  | nil => simp [sortByValue]
  | cons s rest ih => exact insertByValue_sorted s (sortByValue rest) ih

/-- Elements of the facts-deduplication are elements of the input. -/
theorem mem_dedupFacts {a : QState V} {l : List (QState V)} :
    a ∈ dedupFacts l → a ∈ l := by
  have key : ∀ (l : List (QState V)) (acc : List (QState V)),
      a ∈ l.foldl (fun acc s =>
        if s.facts ∈ acc.map (fun u => u.facts) then acc else acc ++ [s]) acc →
      a ∈ acc ∨ a ∈ l := by
    intro l
    induction l with
    | nil => intro acc h; exact Or.inl h
    | cons s rest ih =>
      intro acc h
      rcases ih _ h with hacc | hrest
      · dsimp only at hacc
        by_cases hc : s.facts ∈ acc.map (fun u => u.facts)
        · rw [if_pos hc] at hacc
          exact Or.inl hacc
        · rw [if_neg hc] at hacc
          rcases List.mem_append.1 hacc with h1 | h1
          · exact Or.inl h1
          · exact Or.inr (List.mem_cons.2 (Or.inl (List.mem_singleton.1 h1)))
      · exact Or.inr (List.mem_cons.2 (Or.inr hrest))
  intro h
  rcases key l [] h with h1 | h1
  · exact absurd h1 (List.not_mem_nil a)
  · exact h1

/-- Every state in the candidate list `ns` of a `qfRolloutGo` iteration
has facts not in `seen`, provided the hash-set enumeration `reorder`
only permutes its input. -/
theorem mem_ns_not_seen [LinearOrder V]
    (reorder : List (QState V) → List (QState V))
    (hre : ∀ (l : List (QState V)) (s : QState V), s ∈ reorder l → s ∈ l)
    (seen : List (List String)) (scored : List (QState V)) {u : QState V}
    (hu : u ∈ sortByValue (reorder ((dedupFacts scored).filter
      (fun s => decide (s.facts ∉ seen))))) : u.facts ∉ seen := by
  have h1 := mem_sortByValue.1 hu
  have h2 := hre _ _ h1
  have h3 := List.mem_filter.1 h2
  simpa using h3.2

/-- Layer-disjointness invariant of the rollout loop: if all states of
all recorded layers have their facts in `seen`, and the recorded layers
are pairwise facts-disjoint, both remain true of the final history. -/
theorem qfRolloutGo_layers_disjoint [LinearOrder V] [Add V]
    (env : List (QState V) → List (Bool × List (QAction V)))
    (qv : List (QAction V) → List W) (t : W → V)
    (reorder : List (QState V) → List (QState V)) (beamSize : Nat)
    (hre : ∀ (l : List (QState V)) (s : QState V), s ∈ reorder l → s ∈ l) :
    ∀ (fuel : Nat) (beam : List (QState V)) (history : List (List (QState V)))
      (seen : List (List String)),
      (∀ L ∈ history, ∀ s ∈ L, s.facts ∈ seen) →
      history.Pairwise (fun A B => ∀ s ∈ A, ∀ u ∈ B, s.facts ≠ u.facts) →
      ((qfRolloutGo env qv t reorder beamSize fuel beam history seen).2).Pairwise
        (fun A B => ∀ s ∈ A, ∀ u ∈ B, s.facts ≠ u.facts) := by
  intro fuel
  induction fuel with
  | zero =>
    intro beam history seen h1 h2
    exact h2
  | succ n ih =>
    intro beam history seen h1 h2
    simp only [qfRolloutGo]
    split
    · exact h2
    · split
      · exact h2
      · split
        · exact h2
        · apply ih
          · intro L hL s hs
            rcases List.mem_append.1 hL with hL | hL
            · exact List.mem_append.2 (Or.inl (h1 L hL s hs))
            · rw [List.mem_singleton.1 hL] at hs
              exact List.mem_append.2 (Or.inr (List.mem_map_of_mem _ hs))
          · rw [List.pairwise_append]
            refine ⟨h2, List.pairwise_singleton _ _, ?_⟩
            intro A hA B hB s hs u hu
            rw [List.mem_singleton.1 hB] at hu
            have hseen : s.facts ∈ seen := h1 A hA s hs
            have hnot : u.facts ∉ seen := mem_ns_not_seen reorder hre seen _ hu
            intro he
            exact hnot (he ▸ hseen)

/-- C1 (confirmed, with `environment.py` modelled from the spec):
within one `QFunction.rollout` call, the layers of the returned history
are pairwise disjoint on `facts`: no state whose `facts` sequence equals
that of a state in an earlier layer (hence in an earlier beam, each beam
being a prefix of its layer) appears in a later layer.  Candidates are
pruned against `seen` by `facts` identity, and `seen` absorbs each
appended layer.  The hypothesis says that the hash-set enumeration
`list(set(...))` only reorders the deduplicated candidates. -/
theorem claim1_rollout_no_facts_reappear [LinearOrder V] [Add V]
    (env : List (QState V) → List (Bool × List (QAction V)))
    (qv : List (QAction V) → List W) (t : W → V)
    (reorder : List (QState V) → List (QState V))
    (root : QState V) (maxSteps beamSize : Nat)
    (hre : ∀ (l : List (QState V)) (s : QState V), s ∈ reorder l → s ∈ l) :
    ((qfRollout env qv t reorder root maxSteps beamSize).2).Pairwise
      (fun A B => ∀ s ∈ A, ∀ u ∈ B, s.facts ≠ u.facts) := by
  apply qfRolloutGo_layers_disjoint env qv t reorder beamSize hre
  · intro L hL s hs
    rw [List.mem_singleton.1 hL] at hs
    rw [List.mem_singleton.1 hs]
    exact List.mem_singleton.2 rfl
  · exact List.pairwise_singleton _ _

/-- C1 witness: a concrete two-layer rollout (root layer plus one
expansion) in which the theorem's conclusion is non-vacuous, with the
identity as the hash-set enumeration order. -/
theorem claim1_witness :
    ((qfRollout w1Env zeroQv id id cRoot 2 1).2).length = 2 ∧
    ((qfRollout w1Env zeroQv id id cRoot 2 1).2).Pairwise
      (fun A B => ∀ s ∈ A, ∀ u ∈ B, s.facts ≠ u.facts) :=
  ⟨by decide,
   claim1_rollout_no_facts_reappear w1Env zeroQv id id cRoot 2 1
     (fun _ _ h => h)⟩

/-- Layers of the rollout history are either layers of the incoming
history argument or sorted descending by `value`. -/
theorem qfRolloutGo_layers_from [LinearOrder V] [Add V]
    (env : List (QState V) → List (Bool × List (QAction V)))
    (qv : List (QAction V) → List W) (t : W → V)
    (reorder : List (QState V) → List (QState V)) (beamSize : Nat) :
    ∀ (fuel : Nat) (beam : List (QState V)) (history : List (List (QState V)))
      (seen : List (List String)),
      ∀ L ∈ (qfRolloutGo env qv t reorder beamSize fuel beam history seen).2,
        L ∈ history ∨ L.Pairwise (fun a b => b.value ≤ a.value) := by
  intro fuel
  induction fuel with
  | zero =>
    intro beam history seen L hL
    exact Or.inl hL
  | succ n ih =>
    intro beam history seen L hL
    simp only [qfRolloutGo] at hL
    rcases hb : beam.isEmpty with _ | _
    · rw [hb] at hL
      simp only [Bool.false_eq_true, if_false] at hL
      rcases hr : ((env beam).map Prod.fst).any id with _ | _
      · rw [hr] at hL
        simp only [Bool.false_eq_true, if_false] at hL
        rcases ha : (((env beam).map Prod.snd).flatten).isEmpty with _ | _
        · rw [ha] at hL
          simp only [Bool.false_eq_true, if_false] at hL
          rcases ih _ _ _ L hL with h | h
          · rcases List.mem_append.1 h with h1 | h1
            · exact Or.inl h1
            · rw [List.mem_singleton.1 h1]
              exact Or.inr (sortByValue_sorted _)
          · exact Or.inr h
        · rw [ha] at hL
          simp only [if_true] at hL
          exact Or.inl hL
      · rw [hr] at hL
        simp only [if_true] at hL
        exact Or.inl hL
    · rw [hb] at hL
      simp only [if_true] at hL
      exact Or.inl hL

/-- C2, counterexample to the claim as stated: running the
`q_function.py` rollout with `beam_size = 1` on a root with two
candidate successors appends a history layer holding both candidates —
`history.append(ns)` appends the full sorted candidate list, not the
truncated beam — so a layer after the first has 2 > `beam_size` states. -/
theorem claim2_history_layer_exceeds_beam :
    (qfRollout c2Env zeroQv id id cRoot 1 1).2 = [[cRoot], [c2A, c2B]] ∧
    ¬ ([c2A, c2B].length ≤ 1) := by
  decide

/-- C2, amended: the layer appended to history in each expanding
iteration is the full pruned candidate list `ns` sorted descending by
`value` (the new beam being its first `beam_size` elements), so every
history layer is either the initial root layer or sorted descending by
`value`; layers are not truncated to `beam_size`. -/
theorem claim2_amended_layers_sorted [LinearOrder V] [Add V]
    (env : List (QState V) → List (Bool × List (QAction V)))
    (qv : List (QAction V) → List W) (t : W → V)
    (reorder : List (QState V) → List (QState V))
    (root : QState V) (maxSteps beamSize : Nat) :
    ∀ L ∈ (qfRollout env qv t reorder root maxSteps beamSize).2,
      L = [root] ∨ L.Pairwise (fun a b => b.value ≤ a.value) := by
  intro L hL
  rcases qfRolloutGo_layers_from env qv t reorder beamSize maxSteps
    [root] [[root]] [root.facts] L hL with h | h
  · exact Or.inl (List.mem_singleton.1 h)
  · exact Or.inr h

/-- C2 witness: the amended theorem applied to the second layer of a
concrete two-successor rollout. -/
theorem claim2_amended_witness :
    ((qfRollout c2Env zeroQv id id cRoot 1 1).2).getD 1 [] = [cRoot] ∨
    (((qfRollout c2Env zeroQv id id cRoot 1 1).2).getD 1 []).Pairwise
      (fun a b => b.value ≤ a.value) :=
  claim2_amended_layers_sorted c2Env zeroQv id id cRoot 1 1 _ (by decide)

/-- C8, counterexample to the claim as stated: the candidate list fed to
the sort in `q_function.py`'s rollout is `list(set(...) - seen)`, whose
enumeration order is not a function of the input ordering (Python hash
randomization varies it across processes).  With two equally scored
candidates, the identity enumeration order finds the solution while the
reversed enumeration order (a permutation of the same candidate set)
dead-ends, so two runs differing only in hash-set order produce
different success results — the partition is not determined by seed,
value function and environment alone. -/
theorem claim8_tie_order_changes_outcome :
    (qfRollout c8Env zeroQv id id cRoot 2 1).1 = true ∧
    (qfRollout c8Env zeroQv id List.reverse cRoot 2 1).1 = false ∧
    (List.reverse [c2A, c2B]).Perm [c2A, c2B] :=
  ⟨by decide, by decide, List.reverse_perm _⟩

/-- Two descending-sorted permutations of each other with pairwise
distinct values are equal. -/
theorem sorted_desc_perm_eq [LinearOrder V] :
    ∀ (l1 l2 : List (QState V)), l1.Perm l2 →
      l1.Pairwise (fun a b => b.value ≤ a.value) →
      l2.Pairwise (fun a b => b.value ≤ a.value) →
      (∀ s ∈ l1, ∀ u ∈ l1, s.value = u.value → s = u) →
      l1 = l2 := by
  intro l1
  induction l1 with
  | nil =>
    intro l2 hp _ _ _
    exact (hp.symm.eq_nil).symm
  | cons a t1 ih =>
    intro l2 hp hs1 hs2 hinj
    cases l2 with
    | nil => exact hp.eq_nil
    | cons b t2 =>
      have hab : a = b := by
        rcases List.mem_cons.1 (hp.mem_iff.1 (List.mem_cons_self a t1)) with h | h
        · exact h
        · have h1 : a.value ≤ b.value := (List.pairwise_cons.1 hs2).1 a h
          have hba : b ∈ a :: t1 := hp.symm.mem_iff.1 (List.mem_cons_self b t2)
          rcases List.mem_cons.1 hba with h2 | h2
          · exact h2.symm
          · have h3 : b.value ≤ a.value := (List.pairwise_cons.1 hs1).1 b h2
            exact hinj a (List.mem_cons_self a t1) b hba (le_antisymm h1 h3)
      subst hab
      have ht : t1 = t2 :=
        ih t2 hp.cons_inv (List.pairwise_cons.1 hs1).2 (List.pairwise_cons.1 hs2).2
          (fun s hs u hu he =>
            hinj s (List.mem_cons_of_mem _ hs) u (List.mem_cons_of_mem _ hu) he)
      rw [ht]

/-- C8, amended: for a fixed seed, value function and environment the
evaluation partition is determined only up to the hash-set enumeration
order inside `rollout`; when the candidate values are pairwise distinct
the sorted candidate list — hence the beam and the rollout result — is
independent of that enumeration order (any permutation of the candidate
list sorts to the same output), so cross-run determinism holds exactly
in the absence of value ties (or with a fixed hash seed). -/
theorem claim8_amended_sort_invariant [LinearOrder V]
    (l l' : List (QState V)) (hp : l'.Perm l)
    (hinj : ∀ s ∈ l, ∀ u ∈ l, s.value = u.value → s = u) :
    sortByValue l' = sortByValue l := by
  apply sorted_desc_perm_eq
  · exact (sortByValue_perm l').trans (hp.trans (sortByValue_perm l).symm)
  · exact sortByValue_sorted l'
  · exact sortByValue_sorted l
  · intro s hs u hu he
    exact hinj s (hp.mem_iff.1 (mem_sortByValue.1 hs)) u
      (hp.mem_iff.1 (mem_sortByValue.1 hu)) he

/-- C8 witness: the amended sort-invariance theorem applied to a
concrete two-element candidate list with distinct values and its
reversal. -/
theorem claim8_amended_witness :
    sortByValue [w8Y, w8X] = sortByValue [w8X, w8Y] :=
  claim8_amended_sort_invariant [w8X, w8Y] [w8Y, w8X]
    (List.Perm.swap w8X w8Y []) (by decide)

/-- FIFO law for a bounded deque: after folding any insertion sequence
into an empty `deque(maxlen=c)`, the contents are exactly the most
recently inserted items up to capacity `c`. -/
theorem dequePush_foldl {α : Type} (c : Nat) (xs : List α) :
    xs.foldl (dequePush c) [] = xs.drop (xs.length - c) := by
  induction xs using List.reverseRecOn with
  | nil => simp
  | append_singleton xs a ih =>
    rw [List.foldl_append, List.foldl_cons, List.foldl_nil, ih]
    by_cases h0 : c = 0
    · subst h0
      rw [dequePush]
      simp
    · by_cases h1 : xs.length < c
      · have he1 : xs.length - c = 0 := by omega
        have he2 : xs.length + 1 - c = 0 := by omega
        rw [he1, List.drop_zero, dequePush]
        rw [if_neg (by simp; omega)]
        simp [he2]
      · have hlenL : (xs.drop (xs.length - c)).length = c := by
          rw [List.length_drop]; omega
        rw [dequePush, if_pos (by rw [List.length_append, hlenL]; simp)]
        rw [List.length_append, hlenL]
        have hk : c + [a].length - c = 1 := by simp
        rw [hk, List.drop_append_eq_append_drop, List.drop_drop, hlenL]
        have hk2 : 1 - c = 0 := by omega
        rw [hk2, List.drop_zero]
        rw [List.drop_append_eq_append_drop]
        simp only [List.length_append, List.length_singleton]
        have hk3 : xs.length + 1 - c - xs.length = 0 := by omega
        rw [hk3, List.drop_zero]
        have hk4 : xs.length - c + 1 = xs.length + 1 - c := by omega
        rw [hk4]

/-- C3 (code bug): the `QLearning` replay buffer
(`collections.deque(maxlen=replay_buffer_size)`) satisfies the claimed
FIFO bound — after any insertion sequence its contents are exactly the
most recent items up to capacity, hence its size never exceeds the
capacity — but `BeamSearchIterativeDeepening.__init__` constructs both
of its buffers as `collections.deque(self.replay_buffer_size)`, passing
the capacity as the deque's initial-iterable argument, so construction
raises `TypeError` for every integer capacity instead of creating a
bounded buffer. -/
theorem claim3_buffer_bug :
    (∀ (α : Type) (c : Nat) (xs : List α),
        xs.foldl (dequePush c) [] = xs.drop (xs.length - c) ∧
        (xs.foldl (dequePush c) []).length ≤ c) ∧
    (∀ (α : Type) (n : Int),
        bsidInitBuffers α n =
          Except.error "TypeError: 'int' object is not iterable") := by
  constructor
  · intro α c xs
    refine ⟨dequePush_foldl c xs, ?_⟩
    rw [dequePush_foldl c xs, List.length_drop]
    omega
  · intro α n
    rfl

/-- C7: the target for every sampled transition is the observed reward
itself when it is positive, and otherwise the reward plus the
discounted maximum Q-value over the next state's action set, assuming a
scorer returning one score per action and no dead-end transitions in
the batch. -/
theorem claim7_q_targets {α : Type} (qf : List α → List ℚ) (d : ℚ)
    (batch : List (QRBTuple α))
    (hlen : ∀ l, (qf l).length = l.length)
    (hne : ∀ t ∈ batch, ¬ 0 < t.r → t.A1 ≠ []) :
    computeTargets qf d batch = some (batch.map (fun t =>
      if 0 < t.r then t.r else t.r + d * ((listMax (qf t.A1)).getD 0))) := by
  induction batch with
  | nil => rfl
  | cons t rest ih =>
    have hrest := ih (fun u hu h => hne u (List.mem_cons_of_mem _ hu) h)
    have hhead : computeTarget qf d t =
        some (if 0 < t.r then t.r else t.r + d * ((listMax (qf t.A1)).getD 0)) := by
      by_cases hr : 0 < t.r
      · simp [computeTarget, hr]
      · have hA : t.A1 ≠ [] := hne t (List.mem_cons_self t rest) hr
        have hq : qf t.A1 ≠ [] := by
          intro h0
          have h1 : t.A1.length = 0 := by rw [← hlen t.A1, h0]; rfl
          exact hA (List.length_eq_zero.1 h1)
        cases hqf : qf t.A1 with
        | nil => exact absurd hqf hq
        | cons x ys => simp [computeTarget, hr, hqf, listMax]
    show (t :: rest).mapM (computeTarget qf d) = _
    rw [List.mapM_cons, hhead,
      show rest.mapM (computeTarget qf d) = computeTargets qf d rest from rfl,
      hrest, List.map_cons]
    rfl

/-- C7 witness: concrete two-transition batch with a terminal and a
bootstrapped target. -/
theorem claim7_witness :
    computeTargets w7Qf ((1 : ℚ)/2) w7Batch = some (w7Batch.map (fun t =>
      if 0 < t.r then t.r else t.r + ((1 : ℚ)/2) * ((listMax (w7Qf t.A1)).getD 0))) :=
  claim7_q_targets w7Qf ((1 : ℚ)/2) w7Batch
    (fun l => by simp [w7Qf]) (by decide)

/-- One failing element makes the whole batch target computation fail. -/
theorem computeTargets_eq_none {α : Type} (qf : List α → List ℚ) (d : ℚ)
    {x : QRBTuple α} : ∀ (batch : List (QRBTuple α)), x ∈ batch →
    computeTarget qf d x = none → computeTargets qf d batch = none := by
  intro batch
  induction batch with
  | nil => intro h _; exact absurd h (List.not_mem_nil x)
  | cons t rest ih =>
    intro hmem hnone
    rcases List.mem_cons.1 hmem with rfl | hmem2
    · show (x :: rest).mapM _ = none
      rw [List.mapM_cons, hnone]
      rfl
    · show (t :: rest).mapM _ = none
      rw [List.mapM_cons,
        show rest.mapM (computeTarget qf d) = computeTargets qf d rest from rfl,
        ih hmem2 hnone]
      cases computeTarget qf d t <;> rfl

/-- C10: a dead-end transition — observed reward 0 together with an
empty next-action set — is appended by `learn_from_environment` to the
replay buffer (it really is in the buffer afterwards), and the target
computation of `gradient_steps` fails (raises) on any sampled batch
containing it, since the maximum Q-value over the empty next-action set
is undefined. -/
theorem claim10_dead_end {α : Type} (qf : List α → List ℚ) (d : ℚ)
    (size : Nat) (buf : List (QRBTuple α)) (a0 : α)
    (batch : List (QRBTuple α))
    (hsize : 1 ≤ size)
    (hlen : ∀ l, (qf l).length = l.length)
    (hmem : ({ a0 := a0, r := 0, A1 := [] } : QRBTuple α) ∈ batch) :
    ({ a0 := a0, r := 0, A1 := [] } : QRBTuple α) ∈ qlObserve size buf a0 0 [] ∧
    computeTargets qf d batch = none := by
  constructor
  · rw [qlObserve, dequePush]
    split
    · rw [List.drop_append_eq_append_drop]
      apply List.mem_append.2
      right
      have hk : (buf ++ [({ a0 := a0, r := 0, A1 := [] } : QRBTuple α)]).length
          - size - buf.length = 0 := by
        rw [List.length_append]
        simp
        omega
      rw [hk, List.drop_zero]
      exact List.mem_singleton.2 rfl
    · exact List.mem_append.2 (Or.inr (List.mem_singleton.2 rfl))
  · apply computeTargets_eq_none qf d batch hmem
    have h0 : qf ([] : List α) = [] := by
      have h1 : (qf ([] : List α)).length = 0 := by rw [hlen]; rfl
      exact List.length_eq_zero.1 h1
    simp [computeTarget, h0, listMax]

/-- C10 witness: concrete dead-end transition, buffer capacity 3. -/
theorem claim10_witness :
    ({ a0 := (0 : Nat), r := 0, A1 := [] } : QRBTuple Nat) ∈ qlObserve 3 [] 0 0 [] ∧
    computeTargets w7Qf ((1 : ℚ)/2) [{ a0 := 0, r := 0, A1 := [] }] = none :=
  claim10_dead_end w7Qf ((1 : ℚ)/2) 3 [] 0 [{ a0 := 0, r := 0, A1 := [] }]
    (by decide) (fun l => by simp [w7Qf]) (by decide)

/-- C4, counterexample to the claim as stated: `Environment.step`
executes `s.value = rewards[i]` for every stepped state, so a state
whose search value was -1 has value 1 after a step call reporting
success on it — a subsequent `environment.step` call on a beam
containing `s` does change `s.value`. -/
theorem claim4_step_overwrites_value :
    valueAt c4Arena 0 = -1 ∧
    valueAt (envStep c4Arena [0] [{ success := true, actions := [] }]).1 0 = 1 ∧
    (1 : ℚ) ≠ -1 :=
  ⟨rfl, rfl, by decide⟩

/-- Value folding of `Environment.step` leaves indices outside the
stepped set untouched. -/
theorem stepSetVals_getD_not_mem :
    ∀ (pairs : List (Nat × StepResp)) (sts : List AState) (j : Nat),
      j ∉ pairs.map Prod.fst →
      ((pairs.foldl (fun sts p => sts.set p.1
          { sts.getD p.1 defaultAState with
            value := if p.2.success then 1 else 0 }) sts).getD j defaultAState)
        = sts.getD j defaultAState := by
  intro pairs
  induction pairs with
  | nil => intro sts j _; rfl
  | cons p rest ih =>
    intro sts j h
    rw [List.foldl_cons]
    have hj : j ∉ rest.map Prod.fst := fun hh => h (List.mem_cons_of_mem _ hh)
    rw [ih _ j hj]
    have hne : p.1 ≠ j := fun he =>
      h (by rw [List.map_cons]; exact List.mem_cons.2 (Or.inl he.symm))
    rw [List.getD_eq_getElem?_getD, List.getElem?_set_ne hne, ← List.getD_eq_getElem?_getD]

/-- Value folding of `Environment.step` writes the reward of each
stepped state into its value field. -/
theorem stepSetVals_getD_mem :
    ∀ (pairs : List (Nat × StepResp)) (sts : List AState),
      (pairs.map Prod.fst).Nodup →
      ∀ (sid : Nat) (r : StepResp), (sid, r) ∈ pairs → sid < sts.length →
      ((pairs.foldl (fun sts p => sts.set p.1
          { sts.getD p.1 defaultAState with
            value := if p.2.success then 1 else 0 }) sts).getD sid defaultAState).value
        = (if r.success then 1 else 0) := by
  intro pairs
  induction pairs with
  | nil => intro sts _ sid r h _; exact absurd h (List.not_mem_nil _)
  | cons p rest ih =>
    intro sts hnd sid r hmem hlt
    rw [List.map_cons] at hnd
    have hhead := (List.nodup_cons.1 hnd).1
    have htail := (List.nodup_cons.1 hnd).2
    rw [List.foldl_cons]
    rcases List.mem_cons.1 hmem with heq | hmem2
    · have h1 : p.1 = sid := by rw [← heq]
      have h2 : p.2 = r := by rw [← heq]
      have hout : sid ∉ rest.map Prod.fst := by
        rw [← h1]
        exact hhead
      rw [stepSetVals_getD_not_mem rest _ sid hout, h1]
      rw [List.getD_eq_getElem?_getD, List.getElem?_set_self (by rw [← h1] at hlt ⊢; exact hlt)]
      rw [h2]
      rfl
    · have hnd2 : (rest.map Prod.fst).Nodup := htail
      have hlt2 : sid < (sts.set p.1
          { sts.getD p.1 defaultAState with
            value := if p.2.success then 1 else 0 }).length := by
        rw [List.length_set]
        exact hlt
      exact ih _ hnd2 sid r hmem2 hlt2

/-- C4, amended: `Environment.step` sets the value of every stepped
state to its observed reward (1 for success, 0 otherwise); a state's
value is therefore rewritten — not preserved — by every subsequent
`environment.step` call on a beam containing it, and this overwrite is
exactly what `recover_solutions` later reads through `s.value > 0`.
Between step calls the value is only assigned by the scoring update
`a.state.value + t(q)`. -/
theorem claim4_amended_step_sets_value_to_reward
    (ar : Arena) (sids : List Nat) (resp : List StepResp)
    (hnd : sids.Nodup) (hlen : sids.length = resp.length) :
    ∀ (sid : Nat) (r : StepResp), (sid, r) ∈ sids.zip resp →
      sid < ar.states.length →
      valueAt (envStep ar sids resp).1 sid = (if r.success then 1 else 0) := by
  intro sid r hmem hlt
  have hnd2 : ((sids.zip resp).map Prod.fst).Nodup := by
    rw [List.map_fst_zip sids resp (le_of_eq hlen)]
    exact hnd
  have hlt2 : sid < (ar.states
      ++ (buildStep ar (sids.zip resp) ar.states.length ar.actions.length).1).length := by
    rw [List.length_append]
    omega
  simpa [envStep, valueAt, stateAt] using
    stepSetVals_getD_mem (sids.zip resp) _ hnd2 sid r hmem hlt2

/-- C4 witness: the amended theorem evaluated on the one-state arena
with a success response. -/
theorem claim4_amended_witness :
    valueAt (envStep c4Arena [0] [{ success := true, actions := [] }]).1 0 =
      (if ({ success := true, actions := [] } : StepResp).success then 1 else 0) :=
  claim4_amended_step_sets_value_to_reward c4Arena [0]
    [{ success := true, actions := [] }] (by decide) (by decide) 0
    { success := true, actions := [] } (by decide) (by decide)

/-- Head of the backward chain is the start state. -/
theorem chainBack_head (ar : Arena) :
    ∀ (fuel s : Nat), (chainBack ar fuel s).head? = some s := by
  intro fuel s
  cases fuel with
  | zero => rfl
  | succ n =>
    cases h : parentStateOf ar s with
    | none => simp [chainBack, h]
    | some p => simp [chainBack, h]

/-- The backward chain is never empty. -/
theorem chainBack_ne_nil (ar : Arena) :
    ∀ (fuel s : Nat), chainBack ar fuel s ≠ [] := by
  intro fuel s
  cases fuel with
  | zero => simp [chainBack]
  | succ n => cases h : parentStateOf ar s <;> simp [chainBack, h]

/-- With enough fuel and acyclic parent links, the backward chain ends
in a parentless state. -/
theorem chainBack_getLast_parentless (ar : Arena)
    (hwf : ∀ (i p : Nat), parentStateOf ar i = some p → p < i) :
    ∀ (fuel s : Nat), s ≤ fuel →
      ∃ r, (chainBack ar fuel s).getLast? = some r ∧ parentStateOf ar r = none := by
  intro fuel
  induction fuel with
  | zero =>
    intro s hs
    have hs0 : s = 0 := Nat.le_zero.1 hs
    subst hs0
    refine ⟨0, rfl, ?_⟩
    cases h : parentStateOf ar 0 with
    | none => rfl
    | some p => exact absurd (hwf 0 p h) (Nat.not_lt_zero p)
  | succ n ih =>
    intro s hs
    cases h : parentStateOf ar s with
    | none =>
      refine ⟨s, ?_, h⟩
      simp [chainBack, h]
    | some p =>
      have hp : p < s := hwf s p h
      rcases ih p (by omega) with ⟨r, h1, h2⟩
      refine ⟨r, ?_, h2⟩
      cases hc : chainBack ar n p with
      | nil => exact absurd hc (chainBack_ne_nil ar n p)
      | cons q rest =>
        rw [hc] at h1
        simp only [chainBack, h, hc]
        rw [List.getLast?_cons_cons]
        exact h1

/-- C5, counterexample to the claim as stated: `recover_solutions` has
no traversal cap and no error path.  On a well-formed three-state
parent chain recovered under `max_steps = 1` it happily returns the
full root-to-terminal path of length 3 > `max_steps + 1 = 2` instead of
failing loudly. -/
theorem claim5_no_cap_counterexample :
    recoverSolutions c5Arena [[2]] = [[0, 1, 2]] ∧
    1 + 1 < ([0, 1, 2] : List Nat).length := by
  decide

/-- States beyond the arena hold the parentless placeholder. -/
theorem parentStateOf_out (ar : Arena) (i : Nat) (h : ar.states.length ≤ i) :
    parentStateOf ar i = none := by
  have h1 : stateAt ar i = defaultAState := by
    rw [stateAt, List.getD_eq_default _ _ h]
  simp only [parentStateOf, h1]
  rfl

/-- C5, amended: for every history whose parent chains are acyclic (as
produced by search: every parent index precedes its child), the
backward walk of `recover_solutions` terminates, and every returned
solution runs from a parentless root state to a final-layer state of
strictly positive value; but the implementation imposes no
`max_steps + 1` cap and raises no error — longer chains are returned
whole (see the counterexample). -/
theorem claim5_amended_path_validity (ar : Arena) (hist : List (List Nat))
    (hwf : ∀ (i p : Nat), parentStateOf ar i = some p → p < i) :
    ∀ sol ∈ recoverSolutions ar hist, ∃ s,
      s ∈ hist.getLastD [] ∧ 0 < valueAt ar s ∧
      sol.getLast? = some s ∧
      ∃ r, sol.head? = some r ∧ parentStateOf ar r = none := by
  intro sol hsol
  rcases List.mem_map.1 hsol with ⟨s, hs, rfl⟩
  have hsf := List.mem_filter.1 hs
  refine ⟨s, hsf.1, of_decide_eq_true hsf.2, ?_, ?_⟩
  · rw [List.getLast?_reverse]
    exact chainBack_head ar s s
  · rw [List.head?_reverse]
    exact chainBack_getLast_parentless ar hwf s s (Nat.le_refl s)

/-- C5 witness: the amended theorem applied to the concrete three-state
chain arena and its one-layer history. -/
theorem claim5_amended_witness :
    ∃ s, s ∈ ([[2]] : List (List Nat)).getLastD [] ∧ 0 < valueAt c5Arena s ∧
      ([0, 1, 2] : List Nat).getLast? = some s ∧
      ∃ r, ([0, 1, 2] : List Nat).head? = some r ∧ parentStateOf c5Arena r = none := by
  have hwf : ∀ (i p : Nat), parentStateOf c5Arena i = some p → p < i := by
    intro i p h
    match i with
    | 0 => exact Option.noConfusion h
    | 1 =>
      have h2 : (some 0 : Option Nat) = some p := h
      have h3 := Option.some.inj h2
      omega
    | 2 =>
      have h2 : (some 1 : Option Nat) = some p := h
      have h3 := Option.some.inj h2
      omega
    | n + 3 =>
      have h0 : parentStateOf c5Arena (n + 3) = none :=
        parentStateOf_out c5Arena (n + 3) (by simp [c5Arena])
      rw [h0] at h
      exact Option.noConfusion h
  have hmem : ([0, 1, 2] : List Nat) ∈ recoverSolutions c5Arena [[2]] := by decide
  simpa using claim5_amended_path_validity c5Arena [[2]] hwf [0, 1, 2] hmem

/-- Successful dictionary lookup returns a recorded edge for the key. -/
theorem lookupEdge_prop {edges : List PEdge} {e : PEdge} {s : Nat}
    (h : lookupEdge edges s = some e) : e ∈ edges ∧ e.child = s := by
  refine ⟨List.mem_of_find?_eq_some h, ?_⟩
  have h2 := List.find?_some h
  simpa using h2

/-- The credit walk produces exactly the geometric reward assignment
along the solution chain. -/
theorem creditWalkAux_eq (edges : List PEdge) (decay : ℚ) :
    ∀ (fuel cur : Nat) (c : ℚ) (acc : List (Nat × ℚ)),
      creditWalkAux edges decay fuel cur c acc
        = acc ++ powListFrom decay c (solChainAux edges fuel cur) := by
  intro fuel
  induction fuel with
  | zero => intro cur c acc; simp [creditWalkAux, solChainAux, powListFrom]
  | succ n ih =>
    intro cur c acc
    simp only [creditWalkAux, solChainAux]
    cases h : lookupEdge edges cur with
    | none => simp [powListFrom]
    | some e =>
      dsimp only
      rw [ih]
      simp [powListFrom, List.append_assoc]

/-- Keys of the geometric assignment are the chain itself. -/
theorem powListFrom_keys (decay : ℚ) :
    ∀ (l : List Nat) (c : ℚ), (powListFrom decay c l).map Prod.fst = l := by
  intro l
  induction l with
  | nil => intro c; rfl
  | cons a rest ih => intro c; simp [powListFrom, ih]

/-- Looking up the k-th chain element in the geometric assignment finds
`c * decay ^ k`, provided the chain has no duplicate action ids. -/
theorem powListFrom_find (decay : ℚ) :
    ∀ (l : List Nat) (c : ℚ) (k : Nat) (hk : k < l.length), l.Nodup →
      (powListFrom decay c l).find? (fun p => p.1 == l.get ⟨k, hk⟩)
        = some (l.get ⟨k, hk⟩, c * decay ^ k) := by
  intro l
  induction l with
  | nil => intro c k hk _; exact absurd hk (by simp)
  | cons a rest ih =>
    intro c k hk hnd
    cases k with
    | zero =>
      show ((a, c) :: powListFrom decay (c * decay) rest).find? (fun p => p.1 == a) = _
      rw [List.find?_cons_of_pos _ (by simp)]
      rw [pow_zero, mul_one]
      rfl
    | succ m =>
      have hm : m < rest.length := by simpa using hk
      have hget : (a :: rest).get ⟨m + 1, hk⟩ = rest.get ⟨m, hm⟩ := rfl
      have hne : a ≠ rest.get ⟨m, hm⟩ := by
        intro he
        exact (List.nodup_cons.1 hnd).1 (he ▸ rest.get_mem m hm)
      show ((a, c) :: powListFrom decay (c * decay) rest).find?
        (fun p => p.1 == (a :: rest).get ⟨m + 1, hk⟩) = _
      rw [hget]
      rw [List.find?_cons_of_neg _ (by simpa using hne)]
      rw [ih (c * decay) m hm (List.nodup_cons.1 hnd).2]
      have hpow : c * decay ^ (m + 1) = c * decay * decay ^ m := by ring
      rw [hpow]

/-- Every action id on the solution chain comes from a recorded edge at
or below the walk's start state. -/
theorem solChainAux_mem (edges : List PEdge)
    (hPar : ∀ e ∈ edges, e.parent < e.child) :
    ∀ (fuel cur x : Nat), x ∈ solChainAux edges fuel cur →
      ∃ e, e ∈ edges ∧ e.actionId = x ∧ e.child ≤ cur := by
  intro fuel
  induction fuel with
  | zero => intro cur x h; exact absurd h (List.not_mem_nil x)
  | succ n ih =>
    intro cur x h
    simp only [solChainAux] at h
    cases hl : lookupEdge edges cur with
    | none =>
      rw [hl] at h
      exact absurd h (List.not_mem_nil x)
    | some e =>
      rw [hl] at h
      rcases lookupEdge_prop hl with ⟨hmem, hchild⟩
      rcases List.mem_cons.1 h with rfl | h3
      · exact ⟨e, hmem, rfl, le_of_eq hchild⟩
      · rcases ih e.parent x h3 with ⟨e2, he2, hid, hle⟩
        refine ⟨e2, he2, hid, ?_⟩
        have hpe := hPar e hmem
        omega

/-- The solution chain repeats no action id when edges are acyclic and
action ids identify edges. -/
theorem solChainAux_nodup (edges : List PEdge)
    (hPar : ∀ e ∈ edges, e.parent < e.child)
    (hInj : ∀ e1 ∈ edges, ∀ e2 ∈ edges, e1.actionId = e2.actionId → e1 = e2) :
    ∀ (fuel cur : Nat), (solChainAux edges fuel cur).Nodup := by
  intro fuel
  induction fuel with
  | zero => intro cur; simp [solChainAux]
  | succ n ih =>
    intro cur
    cases hl : lookupEdge edges cur with
    | none => simp [solChainAux, hl]
    | some e =>
      rcases lookupEdge_prop hl with ⟨hmem, hchild⟩
      simp only [solChainAux, hl]
      refine List.nodup_cons.2 ⟨?_, ih e.parent⟩
      intro hin
      rcases solChainAux_mem edges hPar n e.parent e.actionId hin with ⟨e2, he2, hid, hle⟩
      have he : e2 = e := hInj e2 he2 e hmem hid
      rw [he] at hle
      have hpe := hPar e hmem
      omega

/-- Reading the k-th solution-chain action out of `action_reward` gives
`decay ^ k`. -/
theorem arLookup_chain (edges : List PEdge) (decay : ℚ) (sol : Nat)
    (hnd : (solChain edges sol).Nodup)
    (k : Nat) (hk : k < (solChain edges sol).length) :
    arLookup (actionReward edges decay sol) ((solChain edges sol).get ⟨k, hk⟩)
      = decay ^ k := by
  have h1 : actionReward edges decay sol
      = powListFrom decay 1 (solChain edges sol) := by
    rw [actionReward, creditWalkAux_eq, List.nil_append]
    rfl
  rw [h1, arLookup, powListFrom_find decay (solChain edges sol) 1 k hk hnd]
  simp

/-- Actions off the solution chain read reward 0 out of
`action_reward`. -/
theorem arLookup_off_chain (edges : List PEdge) (decay : ℚ) (sol : Nat)
    (a : Nat) (ha : a ∉ solChain edges sol) :
    arLookup (actionReward edges decay sol) a = 0 := by
  have h1 : actionReward edges decay sol
      = powListFrom decay 1 (solChain edges sol) := by
    rw [actionReward, creditWalkAux_eq, List.nil_append]
    rfl
  rw [h1, arLookup]
  have h2 : (powListFrom decay 1 (solChain edges sol)).find? (fun p => p.1 == a)
      = none := by
    rw [List.find?_eq_none]
    intro x hx hbeq
    apply ha
    have hx1 : x.1 ∈ (powListFrom decay 1 (solChain edges sol)).map Prod.fst :=
      List.mem_map_of_mem _ hx
    rw [powListFrom_keys] at hx1
    have hxa : x.1 = a := by simpa using hbeq
    rw [← hxa]
    exact hx1
  rw [h2]
  rfl

/-- The two replay buffers filled by `beam_search` are the recorded
examples partitioned by strict positivity of the assigned reward, in
insertion order. -/
theorem fillBuffers_eq (edges : List PEdge) (ar : List (Nat × ℚ)) :
    fillBuffers edges ar =
      ((edges.map (fun e => (e.child, e.actionId, arLookup ar e.actionId))).filter
          (fun x => decide (0 < x.2.2)),
       (edges.map (fun e => (e.child, e.actionId, arLookup ar e.actionId))).filter
          (fun x => !decide (0 < x.2.2))) := by
  have key : ∀ (es : List PEdge) (p n : List (Nat × Nat × ℚ)),
      es.foldl (fun bufs e =>
        if 0 < arLookup ar e.actionId then
          (bufs.1 ++ [(e.child, e.actionId, arLookup ar e.actionId)], bufs.2)
        else
          (bufs.1, bufs.2 ++ [(e.child, e.actionId, arLookup ar e.actionId)])) (p, n)
      = (p ++ (es.map (fun e => (e.child, e.actionId, arLookup ar e.actionId))).filter
            (fun x => decide (0 < x.2.2)),
         n ++ (es.map (fun e => (e.child, e.actionId, arLookup ar e.actionId))).filter
            (fun x => !decide (0 < x.2.2))) := by
    intro es
    induction es with
    | nil => intro p n; simp
    | cons e rest ih =>
      intro p n
      rw [List.foldl_cons]
      by_cases hr : 0 < arLookup ar e.actionId
      · rw [if_pos hr, ih]
        simp [List.filter_cons, hr]
      · rw [if_neg hr, ih]
        simp [List.filter_cons, hr]
  rw [fillBuffers, key edges [] []]
  simp

/-- C6: after `beam_search` finds a solution, the backward credit walk
assigns reward `decay ^ k` to the action at distance `k` edges from the
terminal along the parent chain (distance 0 nearest the terminal);
every recorded edge whose action is off the solution chain reads reward
0; and a recorded example lands in the positive replay buffer exactly
when its reward is strictly positive.  Hypotheses: each recorded parent
edge points from a later-created state to an earlier one (acyclicity by
construction), and action ids identify edges (Python object ids). -/
theorem claim6_credit_assignment (edges : List PEdge) (sol : Nat) (decay : ℚ)
    (hPar : ∀ e ∈ edges, e.parent < e.child)
    (hInj : ∀ e1 ∈ edges, ∀ e2 ∈ edges, e1.actionId = e2.actionId → e1 = e2) :
    (∀ (k : Nat) (hk : k < (solChain edges sol).length),
        arLookup (actionReward edges decay sol) ((solChain edges sol).get ⟨k, hk⟩)
          = decay ^ k) ∧
    (∀ e ∈ edges, e.actionId ∉ solChain edges sol →
        arLookup (actionReward edges decay sol) e.actionId = 0) ∧
    (∀ x : Nat × Nat × ℚ,
        x ∈ (fillBuffers edges (actionReward edges decay sol)).1 ↔
        (x ∈ edges.map (fun e =>
            (e.child, e.actionId, arLookup (actionReward edges decay sol) e.actionId))
          ∧ 0 < x.2.2)) := by
  refine ⟨?_, ?_, ?_⟩
  · intro k hk
    exact arLookup_chain edges decay sol (solChainAux_nodup edges hPar hInj (sol + 1) sol) k hk
  · intro e _ ha
    exact arLookup_off_chain edges decay sol e.actionId ha
  · intro x
    rw [fillBuffers_eq]
    constructor
    · intro hx
      have hx2 := List.mem_filter.1 hx
      exact ⟨hx2.1, of_decide_eq_true hx2.2⟩
    · intro hx
      exact List.mem_filter.2 ⟨hx.1, decide_eq_true hx.2⟩

/-- C6 witness: the spec's credit-decay scenario — a solved 3-edge path
with decay 1/2 assigns rewards 1, 1/2, 1/4 to the edges
nearest-to-farthest from the terminal. -/
theorem claim6_witness :
    arLookup (actionReward w6Edges ((1 : ℚ)/2) 3) 12 = ((1 : ℚ)/2) ^ 0 ∧
    arLookup (actionReward w6Edges ((1 : ℚ)/2) 3) 11 = ((1 : ℚ)/2) ^ 1 ∧
    arLookup (actionReward w6Edges ((1 : ℚ)/2) 3) 10 = ((1 : ℚ)/2) ^ 2 := by
  have h := claim6_credit_assignment w6Edges 3 ((1 : ℚ)/2) (by decide) (by decide)
  have h0 := h.1 0 (by decide)
  have h1 := h.1 1 (by decide)
  have h2 := h.1 2 (by decide)
  have e0 : (solChain w6Edges 3).get ⟨0, by decide⟩ = 12 := by decide
  have e1 : (solChain w6Edges 3).get ⟨1, by decide⟩ = 11 := by decide
  have e2 : (solChain w6Edges 3).get ⟨2, by decide⟩ = 10 := by decide
  rw [e0] at h0
  rw [e1] at h1
  rw [e2] at h2
  exact ⟨h0, h1, h2⟩
